import Mathlib

/-! # zoekt: the query budgeter of `cmd/zoektrf` and the SVN ingestion of `cmd/zoekt-svnindex`

A shallow embedding of

* `Search` (`cmd/zoektrf/main.go`): parse, estimate the document count, compute the
  match-count ceilings, run the real search, truncate, render the result graph;
* `traverseDir` and `indexArg` (`cmd/zoekt-svnindex/main.go`): the recursive walk over
  an SVN tree and the loop that feeds the walked paths to the shard builder.

Go `int` is taken to be the 64-bit two's-complement type of the platforms the tools are
built for; every arithmetic operator wraps, and `/` truncates toward zero and panics on
a zero divisor.  Calls into other packages (`query.Parse`, `searcher.Search`,
`SearchOptions.SetDefaults`, `svn.List`, `svn.File`, `docconv.Convert`, the `build.Builder`)
are parameters of the embedding.
-/

namespace Zoekt

/-! ## Go `int` -/

/-- Smallest value of a 64-bit Go `int`. -/
def minInt : Int := -9223372036854775808

/-- Largest value of a 64-bit Go `int`. -/
def maxInt : Int := 9223372036854775807

/-- The integer is a value of the Go type `int`. -/
def isInt (x : Int) : Prop := minInt ≤ x ∧ x ≤ maxInt

instance (x : Int) : Decidable (isInt x) := by
  unfold isInt; infer_instance

/-- Two's-complement reduction of a mathematical integer to a Go `int`. -/
def wrap (x : Int) : Int :=
  (x + 9223372036854775808) % 18446744073709551616 - 9223372036854775808

/-- Go `a + b` on `int`. -/
def goAdd (a b : Int) : Int := wrap (a + b)

/-- Go `a * b` on `int`. -/
def goMul (a b : Int) : Int := wrap (a * b)

/-- Go `a / b` on `int`: `none` is the run-time panic on a zero divisor; the quotient
truncates toward zero (and `minInt / -1` wraps). -/
def goDiv (a b : Int) : Option Int :=
  if b = 0 then none else some (wrap (Int.tdiv a b))

/-! ## Data of the serving side -/

/-- Go `error` values. -/
abbrev GoError := String

/-- A byte. -/
abbrev Byte := Fin 256

/-- Go `[]byte`. -/
abbrev Bytes := List Byte

/-- The fields of `zoekt.SearchOptions` that `Search` reads or writes. -/
structure SearchOptions where
  EstimateDocCount : Bool
  Repo : String
  ShardMaxMatchCount : Int
  TotalMaxMatchCount : Int
  ShardMaxImportantMatch : Int
  TotalMaxImportantMatch : Int
  MaxWallTime : Int
deriving DecidableEq, Repr

/-- The Go zero value of `zoekt.SearchOptions`. -/
def SearchOptions.zero : SearchOptions :=
  { EstimateDocCount := false, Repo := "", ShardMaxMatchCount := 0, TotalMaxMatchCount := 0,
    ShardMaxImportantMatch := 0, TotalMaxImportantMatch := 0, MaxWallTime := 0 }

/-- Go `time.Second`, in nanoseconds. -/
def timeSecond : Int := 1000000000

/-- One `zoekt.LineMatch`, as far as `Search` reads it. -/
structure LineMatch where
  Line : Bytes
deriving DecidableEq, Repr

/-- One `zoekt.FileMatch`, as far as `Search` reads it. -/
structure FileMatch where
  FileName : String
  Repository : String
  LineMatches : List LineMatch
deriving DecidableEq, Repr

/-- The fields of `zoekt.SearchResult` that `Search` reads. -/
structure SearchResult where
  ShardFilesConsidered : Int
  Files : List FileMatch
deriving DecidableEq, Repr

/-- Content of an `ogdl.Graph` node (`This interface{}`): nothing, a string or bytes. -/
inductive Value where
  | null : Value
  | str (s : String) : Value
  | bytes (b : Bytes) : Value
deriving DecidableEq, Repr

/-- An `ogdl.Graph`: a node content and the ordered list of sub-nodes. -/
inductive Graph where
  | node (This : Value) (Out : List Graph) : Graph
deriving Repr

/-- Content of a node. -/
def Graph.This : Graph → Value
  | .node t _ => t

/-- Sub-nodes of a node, in insertion order. -/
def Graph.Out : Graph → List Graph
  | .node _ o => o

/-- Go `g.Add(...)`: append one sub-node at the end of `g.Out`. -/
def Graph.Add (g : Graph) (child : Graph) : Graph :=
  .node g.This (g.Out ++ [child])

/-- The packages `Search` calls into: `query.Parse`, `(*SearchOptions).SetDefaults`, the
process-wide `searcher` (with its state threaded explicitly) and the content of the node
made by `ogdl.New()`. -/
structure Searcher (σ Q : Type) where
  Parse : String → Except GoError Q
  SetDefaults : SearchOptions → SearchOptions
  Search : σ → Q → SearchOptions → Except GoError SearchResult × σ
  ogdlNew : Value

/-- Which run-time panic ended a call. -/
inductive PanicKind where
  | divideByZero : PanicKind
  | sliceBounds : PanicKind
deriving DecidableEq, Repr

/-- How a Go call returning `(T, error)` ends: a value, an error, or a panic. -/
inductive Ret (α : Type) where
  | ok (a : α) : Ret α
  | error (e : GoError) : Ret α
  | panicked (k : PanicKind) : Ret α
deriving Repr

/-- A run of `Search`: the options of every `searcher.Search` call, in call order, and
how the run ended. -/
structure Run (α : Type) where
  calls : List SearchOptions
  ret : Ret α

/-! ## `Search` (cmd/zoektrf/main.go) -/

/-- The options of the estimation call, `&zoekt.SearchOptions{EstimateDocCount: true, Repo: repo}`. -/
def estimateOptions (repo : String) : SearchOptions :=
  { SearchOptions.zero with EstimateDocCount := true, Repo := repo }

/-- Lines 88-109 of `Search`: the branch on `numdocs` that fills in the ceilings.
`none` is a division-by-zero panic. -/
def Search.budget (sOpts : SearchOptions) (num numdocs : Int) : Option SearchOptions :=
  if numdocs > 10000 then do
    let k ← goDiv numdocs 1000
    let a ← goDiv (goMul 5 num) k
    let sOpts := { sOpts with ShardMaxMatchCount := goAdd (goMul num 5) a }
    let c ← goDiv num 20
    let k2 ← goDiv numdocs 500
    let d ← goDiv num k2
    pure { sOpts with ShardMaxImportantMatch := goAdd c d }
  else
    let n := goAdd numdocs (goMul num 100)
    some { sOpts with
      ShardMaxImportantMatch := n, ShardMaxMatchCount := n,
      TotalMaxMatchCount := n, TotalMaxImportantMatch := n }

/-- Lines 116-118 of `Search`: `if len(files) > num then files = files[:num]`;
`none` is the slice-bounds panic of a negative `num`. -/
def Search.truncate (files : List FileMatch) (num : Int) : Option (List FileMatch) :=
  if (files.length : Int) > num then
    if num < 0 then none else some (files.take num.toNat)
  else some files

/-- Lines 123-129 of `Search`: the node added for one file. -/
def Search.fileNode (f : FileMatch) : Graph :=
  .node (.str "_")
    [ .node (.str "file") [.node (.str f.FileName) []],
      .node (.str "repo") [.node (.str f.Repository) []],
      .node (.str "lines") (f.LineMatches.map fun l => .node (.bytes l.Line) []) ]

/-- Lines 120-130 of `Search`: a fresh graph with one node added per file, in order. -/
def Search.render (root : Value) (files : List FileMatch) : Graph :=
  files.foldl (fun g f => g.Add (Search.fileNode f)) (.node root [])

/-- The function `Search(qs, num, repo)`, started with the searcher in state `s`. The
`repoOnly` flag computed by `query.VisitAtoms` is never read and is left out. -/
def Search {σ Q : Type} (S : Searcher σ Q) (s : σ) (qs : String) (num : Int) (repo : String) :
    Run Graph :=
  match S.Parse qs with
  | .error err => ⟨[], .error err⟩
  | .ok q =>
    let sOpts := S.SetDefaults { SearchOptions.zero with MaxWallTime := goMul 10 timeSecond }
    let sOpts := { sOpts with Repo := repo }
    match S.Search s q (estimateOptions repo) with
    | (.error err, _) => ⟨[estimateOptions repo], .error err⟩
    | (.ok result, s1) =>
      match Search.budget sOpts num result.ShardFilesConsidered with
      | none => ⟨[estimateOptions repo], .panicked .divideByZero⟩
      | some sOpts =>
        match S.Search s1 q sOpts with
        | (.error err, _) => ⟨[estimateOptions repo, sOpts], .error err⟩
        | (.ok result, _) =>
          match Search.truncate result.Files num with
          | none => ⟨[estimateOptions repo, sOpts], .panicked .sliceBounds⟩
          | some files =>
            ⟨[estimateOptions repo, sOpts], .ok (Search.render S.ogdlNew files)⟩

/-- The options `Search` starts from: `SetDefaults` applied to `{MaxWallTime: 10s}`, then
`Repo` set. -/
def Search.baseOptions {σ Q : Type} (S : Searcher σ Q) (repo : String) : SearchOptions :=
  { S.SetDefaults { SearchOptions.zero with MaxWallTime := goMul 10 timeSecond } with Repo := repo }

/-- A searcher for examples: every query parses, `SetDefaults` is the identity, and
every search reports `numdocs` considered files and returns `files`. -/
def fixedSearcher (numdocs : Int) (files : List FileMatch) : Searcher Unit String where
  Parse := fun qs => .ok qs
  SetDefaults := fun o => o
  Search := fun _ _ _ => (.ok { ShardFilesConsidered := numdocs, Files := files }, ())
  ogdlNew := .null

/-! ## Instances used in examples of the serving side -/

/-- An instance for `SetDefaults`, whose body is outside the two commands: the defaulting
rule of the zoekt library, under which every ceiling still at its zero value gets a
non-zero default (100000 and 10 per shard, ten times the per-shard value in total). -/
def zoektSetDefaults (o : SearchOptions) : SearchOptions :=
  let o := if o.ShardMaxMatchCount = 0 then { o with ShardMaxMatchCount := 100000 } else o
  let o := if o.TotalMaxMatchCount = 0 then
    { o with TotalMaxMatchCount := goMul 10 o.ShardMaxMatchCount } else o
  let o := if o.ShardMaxImportantMatch = 0 then { o with ShardMaxImportantMatch := 10 } else o
  if o.TotalMaxImportantMatch = 0 then
    { o with TotalMaxImportantMatch := goMul 10 o.ShardMaxImportantMatch } else o

/-- The searcher of `fixedSearcher` with the library's defaulting rule for `SetDefaults`. -/
def defaultingSearcher (numdocs : Int) (files : List FileMatch) : Searcher Unit String :=
  { fixedSearcher numdocs files with SetDefaults := zoektSetDefaults }

/-- Two files for examples. -/
def sampleFiles : List FileMatch :=
  [ { FileName := "a.go", Repository := "repo", LineMatches := [{ Line := [104, 105] }] },
    { FileName := "b.go", Repository := "repo", LineMatches := [] } ]

/-! ## Data of the ingestion side -/

/-- A Go `string` used as a path: a sequence of characters. -/
abbrev Path := List Char

/-- Go `strings.HasPrefix`. -/
def HasPrefix (s pre : Path) : Bool := pre.isPrefixOf s

/-- Go `strings.HasSuffix`. -/
def HasSuffix (s suffix : Path) : Bool := suffix.isSuffixOf s

/-- Go `strings.TrimPrefix`: `s` without the leading `pre` when it has it, else `s`. -/
def TrimPrefix (s pre : Path) : Path :=
  if HasPrefix s pre then s.drop pre.length else s

/-- One element of `d.Out` of an `svn.List` result: `e.Get("name").String()` and
`e.Get("kind").String()`. -/
structure Entry where
  name : Path
  kind : Path
deriving DecidableEq, Repr

/-- Listing function of an SVN tree, `svn.List(dir, -1)`: `none` when the call returns an
error, else the ordered entries `d.Out`. -/
abbrev Listing := Path → Option (List Entry)

/-- The fields of `build.Options` set by `main` and `indexArg`. -/
structure Options where
  Parallelism : Int
  SizeMax : Int
  ShardMax : Int
  IndexDir : Path
  RepositoryName : Path
deriving DecidableEq, Repr

/-- The calls `indexArg` makes outside the builder: `filepath.Abs(filepath.Clean(arg))`,
`filepath.Base`, `svn.List`, `svn.File`, `docconv.MimeTypeByExtension` and
`docconv.Convert` (its `res.Body` as bytes). -/
structure Svn where
  Abs : Path → Except GoError Path
  Base : Path → Path
  List : Listing
  File : Path → Bytes
  MimeTypeByExtension : Path → String
  Convert : Bytes → String → Except GoError Bytes

/-- The `build.Builder` with its state threaded explicitly: `build.NewBuilder`,
`builder.AddFile` (its result and the next state) and `builder.Finish`. -/
structure Builder (β : Type) where
  NewBuilder : Options → Except GoError β
  AddFile : β → Path → Bytes → Option GoError × β
  Finish : β → Option GoError

/-- A call made on the builder. -/
inductive BuilderCall where
  | AddFile (name : Path) (content : Bytes) : BuilderCall
  | Finish : BuilderCall
deriving DecidableEq, Repr

/-- A run of `indexArg`: the calls made on the builder, in order, and the returned
`error` (`none` is `nil`). -/
structure IndexRun where
  calls : List BuilderCall
  err : Option GoError
deriving DecidableEq, Repr

/-! ## `traverseDir` and `indexArg` (cmd/zoekt-svnindex/main.go) -/

/-- The loop of `traverseDir` over the entries of `dir`; `rec` is the recursive call.
The result is the sequence of paths sent on the channel. -/
def traverseDir.entries (rec : Path → Option (List Path)) (dir : Path) :
    List Entry → Option (List Path)
  | [] => some []
  | e :: es =>
    if e.kind = "file".toList then
      (traverseDir.entries rec dir es).map fun out => (dir ++ "/".toList ++ e.name) :: out
    else if e.kind = "dir".toList then
      match rec (dir ++ "/".toList ++ e.name) with
      | none => none
      | some sub => (traverseDir.entries rec dir es).map fun out => sub ++ out
    else traverseDir.entries rec dir es

/-- The function `traverseDir(dir, comm)` with a bound on the recursion depth; the
result is the sequence of paths sent on `comm`, `none` when the bound is exhausted. -/
def traverseDir (list : Listing) : Nat → Path → Option (List Path)
  | 0, _ => none
  | fuel + 1, dir =>
    match list dir with
    | none => some []
    | some es => traverseDir.entries (fun d => traverseDir list fuel d) dir es

/-- The body of the `for f := range comm` loop of `indexArg` up to the `continue`:
the content handed on, or `none` when the document is skipped. -/
def indexArg.content (E : Svn) (f : Path) : Option Bytes :=
  let content := E.File f
  let mime := E.MimeTypeByExtension f
  if HasSuffix f ".pdf".toList then
    match E.Convert content mime with
    | .error _ => none
    | .ok body => some body
  else some content

/-- The `for f := range comm` loop of `indexArg` over the received paths: the calls made
on the builder and its state afterwards. The result of `AddFile` is discarded. -/
def indexArg.loop {β : Type} (E : Svn) (B : Builder β) (dir : Path) :
    List Path → β → List BuilderCall × β
  | [], b => ([], b)
  | f :: rest, b =>
    match indexArg.content E f with
    | none => indexArg.loop E B dir rest b
    | some content =>
      let name := TrimPrefix f (dir ++ "/".toList)
      let b1 := (B.AddFile b name content).2
      let r := indexArg.loop E B dir rest b1
      (BuilderCall.AddFile name content :: r.1, r.2)

/-- The function `indexArg(arg, opts, ignore)`; the channel is a first-in-first-out
queue, so the loop receives the paths in the order `traverseDir` sends them. `none` when
the walk exhausts the depth bound. The `ignore` map is never read and is left out. -/
def indexArg {β : Type} (E : Svn) (B : Builder β) (fuel : Nat) (arg : Path) (opts : Options) :
    Option IndexRun :=
  match E.Abs arg with
  | .error err => some ⟨[], some err⟩
  | .ok dir =>
    match B.NewBuilder { opts with RepositoryName := E.Base dir } with
    | .error err => some ⟨[], some err⟩
    | .ok builder =>
      match traverseDir E.List fuel dir with
      | none => none
      | some fs =>
        let r := indexArg.loop E B dir fs builder
        some ⟨r.1 ++ [BuilderCall.Finish], B.Finish r.2⟩

/-! ## The walk, as the specification words it -/

/-- The tree below `dir` is finite: the listing of `dir` fails, or it succeeds and the
tree below each of its sub-directories is finite. -/
inductive FiniteTree (list : Listing) : Path → Prop where
  | failed {dir : Path} : list dir = none → FiniteTree list dir
  | listed {dir : Path} {es : List Entry} : list dir = some es →
      (∀ e ∈ es, e.kind = "dir".toList → FiniteTree list (dir ++ "/".toList ++ e.name)) →
      FiniteTree list dir

/-- Directory `d` is reachable from `root` through directories whose listing succeeds. -/
inductive Reach (list : Listing) : Path → Path → Prop where
  | refl (root : Path) : Reach list root root
  | step {root d : Path} {es : List Entry} {e : Entry} : list root = some es → e ∈ es →
      e.kind = "dir".toList → Reach list (root ++ "/".toList ++ e.name) d → Reach list root d

/-- Path `p` is `d + "/" + name` for an entry of kind `file` listed in a directory `d`
reachable from `root`. -/
def FileBelow (list : Listing) (root p : Path) : Prop :=
  ∃ d es e, Reach list root d ∧ list d = some es ∧ e ∈ es ∧ e.kind = "file".toList ∧
    p = d ++ "/".toList ++ e.name

/-- Depth-first listing order over the entries `es` still to visit in directory `dir`,
following the walker of the specification: entries are taken in listing order; a file
emits its path; a directory whose listing fails emits nothing; a directory whose listing
succeeds emits the walk of its own entries; any other kind emits nothing. -/
inductive WalkEntries (list : Listing) : Path → List Entry → List Path → Prop where
  | done (dir : Path) : WalkEntries list dir [] []
  | file {dir : Path} {e : Entry} {es : List Entry} {out : List Path} :
      e.kind = "file".toList → WalkEntries list dir es out →
      WalkEntries list dir (e :: es) ((dir ++ "/".toList ++ e.name) :: out)
  | dirFailed {dir : Path} {e : Entry} {es : List Entry} {out : List Path} :
      e.kind ≠ "file".toList → e.kind = "dir".toList →
      list (dir ++ "/".toList ++ e.name) = none → WalkEntries list dir es out →
      WalkEntries list dir (e :: es) out
  | dirListed {dir : Path} {e : Entry} {es sub : List Entry} {below out : List Path} :
      e.kind ≠ "file".toList → e.kind = "dir".toList →
      list (dir ++ "/".toList ++ e.name) = some sub →
      WalkEntries list (dir ++ "/".toList ++ e.name) sub below →
      WalkEntries list dir es out →
      WalkEntries list dir (e :: es) (below ++ out)
  | other {dir : Path} {e : Entry} {es : List Entry} {out : List Path} :
      e.kind ≠ "file".toList → e.kind ≠ "dir".toList → WalkEntries list dir es out →
      WalkEntries list dir (e :: es) out

/-- The walk of the specification from `root`: nothing when the listing of `root`
fails, else the depth-first walk of its entries. -/
def Walk (list : Listing) (root : Path) (out : List Path) : Prop :=
  (list root = none ∧ out = []) ∨ ∃ es, list root = some es ∧ WalkEntries list root es out

/-- A small tree for examples: `/r` holds file `a.pdf`, directory `d` (holding file `b`),
directory `gone` (whose listing fails) and file `c`. -/
def sampleTree : Listing := fun dir =>
  if dir = "/r".toList then
    some [⟨"a.pdf".toList, "file".toList⟩, ⟨"d".toList, "dir".toList⟩,
      ⟨"gone".toList, "dir".toList⟩, ⟨"c".toList, "file".toList⟩]
  else if dir = "/r/d".toList then some [⟨"b".toList, "file".toList⟩]
  else none

/-- The document is one the loop of `indexArg` skips: its path ends in `.pdf` and
`docconv.Convert` returned an error. -/
def conversionFailed (E : Svn) (f : Path) : Bool :=
  HasSuffix f ".pdf".toList &&
    match E.Convert (E.File f) (E.MimeTypeByExtension f) with
    | .error _ => true
    | .ok _ => false

/-- An environment for examples over `sampleTree`: paths are already absolute, every
file is empty and every conversion fails. -/
def sampleSvn : Svn where
  Abs := fun arg => .ok arg
  Base := fun dir => dir
  List := sampleTree
  File := fun _ => []
  MimeTypeByExtension := fun _ => "application/pdf"
  Convert := fun _ _ => .error "malformed"

/-- A builder for examples that counts the documents added and reports an error on
every `AddFile`; `Finish` succeeds. -/
def rejectingBuilder : Builder Nat where
  NewBuilder := fun _ => .ok 0
  AddFile := fun b _ _ => (some "rejected", b + 1)
  Finish := fun _ => none

/-- Options for examples. -/
def sampleOptions : Options :=
  { Parallelism := 4, SizeMax := 131072, ShardMax := 104857600,
    IndexDir := "/idx".toList, RepositoryName := [] }

/-! # Theorems -/

/-! ## Arithmetic helpers -/

theorem wrap_of_isInt {x : Int} (h : isInt x) : wrap x = x := by
  unfold isInt minInt maxInt at h
  unfold wrap
  omega

theorem isInt_wrap (x : Int) : isInt (wrap x) := by
  unfold isInt minInt maxInt wrap
  omega

theorem goDiv_pos {a b : Int} (ha : isInt a) (hb : 0 < b) :
    goDiv a b = some (Int.tdiv a b) ∧ isInt (Int.tdiv a b) := by
  have hq : isInt (Int.tdiv a b) := by
    unfold isInt minInt maxInt at *
    rcases Int.le_total 0 a with h0 | h0
    · rw [Int.tdiv_eq_ediv h0 (le_of_lt hb)]
      have h1 : a / b ≤ a := Int.ediv_le_self b h0
      have h2 : 0 ≤ a / b := Int.ediv_nonneg h0 (le_of_lt hb)
      omega
    · have e : Int.tdiv a b = -(Int.tdiv (-a) b) := by
        rw [Int.neg_tdiv]; simp
      rw [e, Int.tdiv_eq_ediv (by omega) (le_of_lt hb)]
      have h1 : (-a) / b ≤ -a := Int.ediv_le_self b (by omega)
      have h2 : 0 ≤ (-a) / b := Int.ediv_nonneg (by omega) (le_of_lt hb)
      omega
  refine ⟨?_, hq⟩
  unfold goDiv
  rw [if_neg (by omega), wrap_of_isInt hq]

/-- The large-corpus branch of `Search.budget`, with its two divisors made explicit. -/
theorem budget_large (sOpts : SearchOptions) {num numdocs : Int}
    (hn : isInt num) (hd : isInt numdocs) (hbig : 10000 < numdocs) :
    Search.budget sOpts num numdocs = some
      { sOpts with
        ShardMaxMatchCount := goAdd (goMul num 5) (Int.tdiv (goMul 5 num) (numdocs / 1000)),
        ShardMaxImportantMatch := goAdd (Int.tdiv num 20) (Int.tdiv num (numdocs / 500)) } := by
  have h1 := goDiv_pos hd (show (0:Int) < 1000 by norm_num)
  have h2 := goDiv_pos hd (show (0:Int) < 500 by norm_num)
  rw [Int.tdiv_eq_ediv (by omega) (by norm_num)] at h1 h2
  have h3 := goDiv_pos (isInt_wrap (5 * num)) (show (0:Int) < numdocs / 1000 by omega)
  have h4 := goDiv_pos hn (show (0:Int) < 20 by norm_num)
  have h5 := goDiv_pos hn (show (0:Int) < numdocs / 500 by omega)
  unfold Search.budget
  rw [if_pos hbig]
  simp only [goMul] at h3 ⊢
  simp [h1.1, h2.1, h3.1, h4.1, h5.1]

theorem budget_small (sOpts : SearchOptions) {num numdocs : Int} (hsmall : numdocs ≤ 10000) :
    Search.budget sOpts num numdocs = some
      { sOpts with
        ShardMaxImportantMatch := goAdd numdocs (goMul num 100),
        ShardMaxMatchCount := goAdd numdocs (goMul num 100),
        TotalMaxMatchCount := goAdd numdocs (goMul num 100),
        TotalMaxImportantMatch := goAdd numdocs (goMul num 100) } := by
  unfold Search.budget
  rw [if_neg (by omega)]

/-- Once the query parses and the estimation call succeeds, the calls of `Search` are
the estimation call followed by one call with the budgeted options. -/
theorem Search_calls {σ Q : Type} (S : Searcher σ Q) (s s1 : σ) (qs : String) (num : Int)
    (repo : String) (q : Q) (r : SearchResult) (o : SearchOptions)
    (hp : S.Parse qs = .ok q) (he : S.Search s q (estimateOptions repo) = (.ok r, s1))
    (hb : Search.budget (Search.baseOptions S repo) num r.ShardFilesConsidered = some o) :
    (Search S s qs num repo).calls = [estimateOptions repo, o] := by
  unfold Search
  unfold Search.baseOptions at hb
  simp only [hp, he, hb]
  rcases hs : S.Search s1 q o with ⟨res, s2⟩
  cases res with
  | error e => rfl
  | ok r2 =>
    simp only
    cases Search.truncate r2.Files num <;> rfl

theorem budget_isSome (sOpts : SearchOptions) {num numdocs : Int}
    (hn : isInt num) (hd : isInt numdocs) :
    ∃ o, Search.budget sOpts num numdocs = some o := by
  rcases lt_or_le 10000 numdocs with h | h
  · exact ⟨_, budget_large sOpts hn hd h⟩
  · exact ⟨_, budget_small sOpts h⟩

theorem ediv_antitone_divisor {a k1 k2 : Int} (ha : 0 ≤ a) (hk1 : 0 < k1) (hk : k1 ≤ k2) :
    a / k2 ≤ a / k1 := by
  have hk2 : 0 < k2 := lt_of_lt_of_le hk1 hk
  rw [Int.le_ediv_iff_mul_le hk1]
  have h1 : 0 ≤ a / k2 := Int.ediv_nonneg ha (le_of_lt hk2)
  have h2 : a / k2 * k2 ≤ a := Int.ediv_mul_le a (ne_of_gt hk2)
  have h3 : a / k2 * k1 ≤ a / k2 * k2 := Int.mul_le_mul_of_nonneg_left hk h1
  exact le_trans h3 h2

/-- The important-match ceiling of the large-corpus branch never overflows for a
non-negative `num`. -/
theorem important_exact {num k : Int} (hn : isInt num) (h0 : 0 ≤ num) (hk : 20 ≤ k) :
    goAdd (Int.tdiv num 20) (Int.tdiv num k) = num / 20 + num / k := by
  rw [Int.tdiv_eq_ediv h0 (by norm_num), Int.tdiv_eq_ediv h0 (by omega)]
  have h1 : num / k ≤ num / 20 := ediv_antitone_divisor h0 (by norm_num) hk
  have h2 : 0 ≤ num / k := Int.ediv_nonneg h0 (by omega)
  unfold goAdd
  apply wrap_of_isInt
  unfold isInt minInt maxInt at *
  omega

/-- The match ceiling of the large-corpus branch is the mathematical value whenever
that value fits in an `int`. -/
theorem match_exact {num k : Int} (h0 : 0 ≤ num) (hk : 0 < k)
    (hfit : num * 5 + 5 * num / k ≤ maxInt) :
    goAdd (goMul num 5) (Int.tdiv (goMul 5 num) k) = num * 5 + 5 * num / k := by
  have h2 : 0 ≤ 5 * num / k := Int.ediv_nonneg (by omega) (by omega)
  have e1 : goMul num 5 = num * 5 := by
    unfold goMul; apply wrap_of_isInt; unfold isInt minInt maxInt at *; omega
  have e2 : goMul 5 num = 5 * num := by
    unfold goMul; apply wrap_of_isInt; unfold isInt minInt maxInt at *; omega
  rw [e1, e2, Int.tdiv_eq_ediv (by omega) (by omega)]
  unfold goAdd
  apply wrap_of_isInt
  unfold isInt minInt maxInt at *
  omega

theorem render_Out_aux (t : Value) (files : List FileMatch) (acc : List Graph) :
    (files.foldl (fun (g : Graph) f => g.Add (Search.fileNode f)) (Graph.node t acc)).Out
      = acc ++ files.map Search.fileNode := by
  induction files generalizing acc with
  | nil => simp [Graph.Out]
  | cons f fs ih =>
    simp only [List.foldl_cons, List.map_cons]
    rw [show (Graph.node t acc).Add (Search.fileNode f) = .node t (acc ++ [Search.fileNode f]) from rfl]
    rw [ih]
    simp

theorem render_Out (root : Value) (files : List FileMatch) :
    (Search.render root files).Out = files.map Search.fileNode := by
  unfold Search.render
  rw [render_Out_aux]
  simp

theorem truncate_nonneg (files : List FileMatch) {num : Int} (h0 : 0 ≤ num) :
    Search.truncate files num = some (files.take num.toNat) := by
  unfold Search.truncate
  split
  · rw [if_neg (by omega)]
  · rename_i h
    have : files.length ≤ num.toNat := by omega
    rw [List.take_of_length_le this]

/-- C1: when the estimate reports `numDocs > 10000` and `num >= 0`, the options of the real
search carry `ShardMaxMatchCount = num*5 + (5*num)/(numDocs/1000)` and
`ShardMaxImportantMatch = num/20 + num/(numDocs/500)`, the operators being those of Go
`int` (the important ceiling is always the exact integer value, the match ceiling is the
exact integer value whenever that fits in an `int`); for `num = 50`, `numDocs = 50000`
they are 255 and 2. -/
theorem Search_large_corpus_shard_ceilings {σ Q : Type} (S : Searcher σ Q) (s s1 : σ)
    (qs : String) (num : Int) (repo : String) (q : Q) (r : SearchResult)
    (hp : S.Parse qs = .ok q) (he : S.Search s q (estimateOptions repo) = (.ok r, s1))
    (hn : isInt num) (hd : isInt r.ShardFilesConsidered)
    (h0 : 0 ≤ num) (hbig : 10000 < r.ShardFilesConsidered) :
    (∃ o, (Search S s qs num repo).calls = [estimateOptions repo, o] ∧
      o.ShardMaxMatchCount
        = goAdd (goMul num 5) (Int.tdiv (goMul 5 num) (r.ShardFilesConsidered / 1000)) ∧
      (num * 5 + 5 * num / (r.ShardFilesConsidered / 1000) ≤ maxInt →
        o.ShardMaxMatchCount = num * 5 + 5 * num / (r.ShardFilesConsidered / 1000)) ∧
      o.ShardMaxImportantMatch = num / 20 + num / (r.ShardFilesConsidered / 500)) ∧
    (∀ sOpts : SearchOptions,
      (Search.budget sOpts 50 50000).map
        (fun o => (o.ShardMaxMatchCount, o.ShardMaxImportantMatch)) = some (255, 2)) := by
  refine ⟨⟨_, Search_calls S s s1 qs num repo q r _ hp he
    (budget_large (Search.baseOptions S repo) hn hd hbig), rfl, ?_, ?_⟩, ?_⟩
  · intro hfit
    exact match_exact h0 (by omega) hfit
  · exact important_exact hn h0 (by omega)
  · intro sOpts
    rw [budget_large sOpts (by decide) (by decide) (by decide)]
    simp only [Option.map_some']
    decide

/-- C1 at `num = 50`, `numDocs = 50000`: the real search gets the ceilings 255 and 2. -/
theorem Search_large_corpus_shard_ceilings_witness :
    ∃ o, (Search (fixedSearcher 50000 []) () "needle" 50 "repo").calls
        = [estimateOptions "repo", o] ∧
      o.ShardMaxMatchCount = 255 ∧ o.ShardMaxImportantMatch = 2 := by
  obtain ⟨⟨o, hc, h1, -, h3⟩, -⟩ :=
    Search_large_corpus_shard_ceilings (fixedSearcher 50000 []) () () "needle" 50 "repo"
      "needle" { ShardFilesConsidered := 50000, Files := [] } rfl rfl
      (by decide) (by decide) (by decide) (by decide)
  refine ⟨o, hc, ?_, ?_⟩
  · rw [h1]; decide
  · rw [h3]; decide

/-- C2: when the estimate reports `numDocs <= 10000` (10000 included), the four ceilings
of the options of the real search all equal `numDocs + num*100` (Go `int` operators; the
exact integer value whenever it fits in an `int`); for `num = 50`, `numDocs = 10000` all
four are 15000. -/
theorem Search_small_corpus_ceilings {σ Q : Type} (S : Searcher σ Q) (s s1 : σ)
    (qs : String) (num : Int) (repo : String) (q : Q) (r : SearchResult)
    (hp : S.Parse qs = .ok q) (he : S.Search s q (estimateOptions repo) = (.ok r, s1))
    (hsmall : r.ShardFilesConsidered ≤ 10000) :
    (∃ o, (Search S s qs num repo).calls = [estimateOptions repo, o] ∧
      o.ShardMaxMatchCount = goAdd r.ShardFilesConsidered (goMul num 100) ∧
      o.ShardMaxImportantMatch = o.ShardMaxMatchCount ∧
      o.TotalMaxMatchCount = o.ShardMaxMatchCount ∧
      o.TotalMaxImportantMatch = o.ShardMaxMatchCount ∧
      (isInt (r.ShardFilesConsidered + num * 100) →
        o.ShardMaxMatchCount = r.ShardFilesConsidered + num * 100)) ∧
    (∀ sOpts : SearchOptions,
      (Search.budget sOpts 50 10000).map
        (fun o => (o.ShardMaxMatchCount, o.ShardMaxImportantMatch,
          o.TotalMaxMatchCount, o.TotalMaxImportantMatch))
        = some (15000, 15000, 15000, 15000)) := by
  refine ⟨⟨_, Search_calls S s s1 qs num repo q r _ hp he
    (budget_small (Search.baseOptions S repo) hsmall), rfl, rfl, rfl, rfl, ?_⟩, ?_⟩
  · intro hfit
    show goAdd r.ShardFilesConsidered (goMul num 100) = _
    unfold isInt minInt maxInt at hfit
    unfold goAdd goMul wrap
    omega
  · intro sOpts
    rw [budget_small sOpts (by decide)]
    simp only [Option.map_some']
    decide

/-- C2 at `num = 50`, `numDocs = 10000`: all four ceilings of the real search are 15000. -/
theorem Search_small_corpus_ceilings_witness :
    ∃ o, (Search (fixedSearcher 10000 []) () "needle" 50 "repo").calls
        = [estimateOptions "repo", o] ∧
      o.ShardMaxMatchCount = 15000 ∧ o.ShardMaxImportantMatch = 15000 ∧
      o.TotalMaxMatchCount = 15000 ∧ o.TotalMaxImportantMatch = 15000 := by
  obtain ⟨⟨o, hc, h1, h2, h3, h4, -⟩, -⟩ :=
    Search_small_corpus_ceilings (fixedSearcher 10000 []) () () "needle" 50 "repo"
      "needle" { ShardFilesConsidered := 10000, Files := [] } rfl rfl (by decide)
  have e : o.ShardMaxMatchCount = 15000 := by rw [h1]; decide
  exact ⟨o, hc, e, by rw [h2, e], by rw [h3, e], by rw [h4, e]⟩

/-- C8 (as stated, refuted): with the library's defaulting rule for `SetDefaults` and an
estimate of 50000 documents, the options of the real search carry the total ceilings
1000000 and 100, not 0. -/
theorem Search_large_corpus_totals_not_zero :
    ∃ o, (Search (defaultingSearcher 50000 []) () "needle" 50 "repo").calls
        = [estimateOptions "repo", o] ∧
      o.TotalMaxMatchCount = 1000000 ∧ o.TotalMaxImportantMatch = 100 := by
  refine ⟨_, Search_calls (defaultingSearcher 50000 []) () () "needle" 50 "repo" "needle"
    { ShardFilesConsidered := 50000, Files := [] } _ rfl rfl
    (budget_large _ (by decide) (by decide) (by decide)), ?_, ?_⟩ <;> decide

/-- C8 (amended): when the estimate reports `numDocs > 10000`, the large-corpus branch
assigns neither total ceiling: the options of the real search carry the
`TotalMaxMatchCount` and `TotalMaxImportantMatch` that `SetDefaults` left in the options
built from `MaxWallTime` alone, so they are 0 exactly when `SetDefaults` leaves them 0. -/
theorem Search_large_corpus_totals_untouched {σ Q : Type} (S : Searcher σ Q) (s s1 : σ)
    (qs : String) (num : Int) (repo : String) (q : Q) (r : SearchResult)
    (hp : S.Parse qs = .ok q) (he : S.Search s q (estimateOptions repo) = (.ok r, s1))
    (hn : isInt num) (hd : isInt r.ShardFilesConsidered)
    (hbig : 10000 < r.ShardFilesConsidered) :
    ∃ o, (Search S s qs num repo).calls = [estimateOptions repo, o] ∧
      o.TotalMaxMatchCount
        = (S.SetDefaults { SearchOptions.zero with
            MaxWallTime := goMul 10 timeSecond }).TotalMaxMatchCount ∧
      o.TotalMaxImportantMatch
        = (S.SetDefaults { SearchOptions.zero with
            MaxWallTime := goMul 10 timeSecond }).TotalMaxImportantMatch :=
  ⟨_, Search_calls S s s1 qs num repo q r _ hp he
    (budget_large (Search.baseOptions S repo) hn hd hbig), rfl, rfl⟩

/-- C8 (amended) at `num = 50`, `numDocs = 50000` with an identity `SetDefaults`: the
total ceilings of the real search are the 0 that `SetDefaults` left. -/
theorem Search_large_corpus_totals_untouched_witness :
    ∃ o, (Search (fixedSearcher 50000 []) () "needle" 50 "repo").calls
        = [estimateOptions "repo", o] ∧
      o.TotalMaxMatchCount = 0 ∧ o.TotalMaxImportantMatch = 0 :=
  Search_large_corpus_totals_untouched (fixedSearcher 50000 []) () () "needle" 50 "repo"
    "needle" { ShardFilesConsidered := 50000, Files := [] } rfl rfl
    (by decide) (by decide) (by decide)

/-- C9: for `numDocs > 10000` both divisors of the large-corpus branch are at least 10
and 20, the budget computation yields options for every `num` and `numDocs`, and no run
of `Search` ends in a division-by-zero panic. -/
theorem Search_never_divides_by_zero {σ Q : Type} (S : Searcher σ Q) (s : σ)
    (qs : String) (num numdocs : Int) (repo : String)
    (hn : isInt num) (hd : isInt numdocs)
    (hS : ∀ t q o r t1, S.Search t q o = (.ok r, t1) → isInt r.ShardFilesConsidered) :
    (10000 < numdocs →
      10 ≤ numdocs / 1000 ∧ 20 ≤ numdocs / 500 ∧
      goDiv numdocs 1000 = some (numdocs / 1000) ∧
      goDiv numdocs 500 = some (numdocs / 500)) ∧
    (∀ sOpts, ∃ o, Search.budget sOpts num numdocs = some o) ∧
    (Search S s qs num repo).ret ≠ .panicked .divideByZero := by
  refine ⟨?_, fun sOpts => budget_isSome sOpts hn hd, ?_⟩
  · intro hbig
    have h1 := (goDiv_pos hd (show (0:Int) < 1000 by norm_num)).1
    have h2 := (goDiv_pos hd (show (0:Int) < 500 by norm_num)).1
    rw [Int.tdiv_eq_ediv (by omega) (by norm_num)] at h1 h2
    exact ⟨by omega, by omega, h1, h2⟩
  · unfold Search
    cases hp : S.Parse qs with
    | error e => simp
    | ok q =>
      simp only
      rcases he : S.Search s q (estimateOptions repo) with ⟨res, s1⟩
      cases res with
      | error e => simp
      | ok r =>
        simp only
        obtain ⟨o, ho⟩ := budget_isSome
          { S.SetDefaults { SearchOptions.zero with MaxWallTime := goMul 10 timeSecond } with
            Repo := repo } hn (hS _ _ _ _ _ he)
        rw [ho]
        simp only
        rcases hr : S.Search s1 q o with ⟨res2, s2⟩
        cases res2 with
        | error e => simp
        | ok r2 =>
          simp only
          cases Search.truncate r2.Files num <;> simp

/-- C9 at `num = 50` with an estimate of exactly 10001 documents. -/
theorem Search_never_divides_by_zero_witness :
    (10 ≤ (10001 : Int) / 1000 ∧ 20 ≤ (10001 : Int) / 500 ∧
      goDiv 10001 1000 = some (10001 / 1000) ∧ goDiv 10001 500 = some (10001 / 500)) ∧
    (Search (fixedSearcher 10001 []) () "needle" 50 "repo").ret ≠ .panicked .divideByZero := by
  have h := Search_never_divides_by_zero (fixedSearcher 10001 []) () "needle" 50 10001 "repo"
    (by decide) (by decide)
    (by
      intro t q o r t1 h
      simp only [fixedSearcher, Prod.mk.injEq, Except.ok.injEq] at h
      rw [← h.1]
      decide)
  exact ⟨h.1 (by decide), h.2.2⟩

/-- C10 (as stated, refuted): for `num = 1700000000000000000` the match ceiling at 10001
documents has wrapped to a negative value while the one at 20000 documents is
8925000000000000000: the larger corpus gets the looser cap. -/
theorem Search_budget_match_ceiling_grows :
    isInt 1700000000000000000 ∧
    ∃ o1 o2, Search.budget SearchOptions.zero 1700000000000000000 10001 = some o1 ∧
      Search.budget SearchOptions.zero 1700000000000000000 20000 = some o2 ∧
      o1.ShardMaxMatchCount = -9096744073709551616 ∧
      o2.ShardMaxMatchCount = 8925000000000000000 ∧
      o1.ShardMaxMatchCount < o2.ShardMaxMatchCount := by
  refine ⟨by decide, _, _, budget_large _ (by decide) (by decide) (by decide),
    budget_large _ (by decide) (by decide) (by decide), ?_, ?_, ?_⟩ <;> decide

/-- C10 (amended): in the large-corpus branch, for `num >= 0` and `10000 < d1 <= d2`, the
important-match ceiling at `d2` is at most the one at `d1`; and whenever the match ceiling
at `d1`, `num*5 + (5*num)/(d1/1000)`, fits in an `int`, the match ceiling at `d2` is at
most the one at `d1`, both being the exact integer values. -/
theorem Search_budget_antitone_in_numdocs (sOpts : SearchOptions) (num d1 d2 : Int)
    (hn : isInt num) (h1 : isInt d1) (h2 : isInt d2)
    (h0 : 0 ≤ num) (hbig : 10000 < d1) (hle : d1 ≤ d2) :
    ∃ o1 o2, Search.budget sOpts num d1 = some o1 ∧ Search.budget sOpts num d2 = some o2 ∧
      o1.ShardMaxImportantMatch = num / 20 + num / (d1 / 500) ∧
      o2.ShardMaxImportantMatch = num / 20 + num / (d2 / 500) ∧
      o2.ShardMaxImportantMatch ≤ o1.ShardMaxImportantMatch ∧
      (num * 5 + 5 * num / (d1 / 1000) ≤ maxInt →
        o1.ShardMaxMatchCount = num * 5 + 5 * num / (d1 / 1000) ∧
        o2.ShardMaxMatchCount = num * 5 + 5 * num / (d2 / 1000) ∧
        o2.ShardMaxMatchCount ≤ o1.ShardMaxMatchCount) := by
  have hk : d1 / 1000 ≤ d2 / 1000 := Int.ediv_le_ediv (by norm_num) hle
  have hk5 : d1 / 500 ≤ d2 / 500 := Int.ediv_le_ediv (by norm_num) hle
  have e1 := important_exact (k := d1 / 500) hn h0 (by omega)
  have e2 := important_exact (k := d2 / 500) hn h0 (by omega)
  have m5 : num / (d2 / 500) ≤ num / (d1 / 500) :=
    ediv_antitone_divisor h0 (by omega) hk5
  have m : 5 * num / (d2 / 1000) ≤ 5 * num / (d1 / 1000) :=
    ediv_antitone_divisor (by omega) (by omega) hk
  refine ⟨_, _, budget_large sOpts hn h1 hbig, budget_large sOpts hn h2 (by omega),
    e1, e2, ?_, ?_⟩
  · show goAdd _ _ ≤ goAdd _ _
    rw [e1, e2]; omega
  · intro hfit
    have f1 := match_exact (k := d1 / 1000) h0 (by omega) hfit
    have f2 := match_exact (k := d2 / 1000) h0 (by omega) (by omega)
    refine ⟨f1, f2, ?_⟩
    show goAdd _ _ ≤ goAdd _ _
    rw [f1, f2]; omega

/-- C10 (amended) at `num = 50`, `d1 = 10001`, `d2 = 50000`: the ceilings drop from
275 and 4 to 255 and 2. -/
theorem Search_budget_antitone_in_numdocs_witness :
    ∃ o1 o2, Search.budget SearchOptions.zero 50 10001 = some o1 ∧
      Search.budget SearchOptions.zero 50 50000 = some o2 ∧
      o1.ShardMaxImportantMatch = 4 ∧ o2.ShardMaxImportantMatch = 2 ∧
      o1.ShardMaxMatchCount = 275 ∧ o2.ShardMaxMatchCount = 255 := by
  obtain ⟨o1, o2, hb1, hb2, i1, i2, -, hm⟩ :=
    Search_budget_antitone_in_numdocs SearchOptions.zero 50 10001 50000
      (by decide) (by decide) (by decide) (by decide) (by decide) (by decide)
  obtain ⟨m1, m2, -⟩ := hm (by decide)
  exact ⟨o1, o2, hb1, hb2, by rw [i1]; decide, by rw [i2]; decide,
    by rw [m1]; decide, by rw [m2]; decide⟩

/-- C3: when the real search returns the file list `r2.Files` and `num >= 0`, `Search`
returns a graph whose entries are the rendering, file by file and in order, of the first
`num` files of that list: a prefix of it, of length `min (len files) num`. -/
theorem Search_truncates_to_prefix {σ Q : Type} (S : Searcher σ Q) (s s1 s2 : σ)
    (qs : String) (num : Int) (repo : String) (q : Q) (r r2 : SearchResult)
    (o : SearchOptions)
    (hp : S.Parse qs = .ok q) (he : S.Search s q (estimateOptions repo) = (.ok r, s1))
    (hb : Search.budget (Search.baseOptions S repo) num r.ShardFilesConsidered = some o)
    (hr : S.Search s1 q o = (.ok r2, s2)) (h0 : 0 ≤ num) :
    ∃ g files, (Search S s qs num repo).ret = .ok g ∧
      files = r2.Files.take num.toNat ∧
      files <+: r2.Files ∧
      (files.length : Int) = min (r2.Files.length : Int) num ∧
      g.Out = files.map Search.fileNode ∧
      g.Out.length = files.length := by
  refine ⟨Search.render S.ogdlNew (r2.Files.take num.toNat), r2.Files.take num.toNat,
    ?_, rfl, List.take_prefix _ _, ?_, render_Out _ _, ?_⟩
  · unfold Search
    unfold Search.baseOptions at hb
    simp only [hp, he, hb, hr, truncate_nonneg r2.Files h0]
  · rw [List.length_take]
    omega
  · rw [render_Out, List.length_map]

/-- C3 with two files returned and `num = 1`: the graph holds the first file only. -/
theorem Search_truncates_to_prefix_witness :
    ∃ g files, (Search (fixedSearcher 7 sampleFiles) () "needle" 1 "repo").ret = .ok g ∧
      files = sampleFiles.take (1 : Int).toNat ∧
      files <+: sampleFiles ∧
      (files.length : Int) = min (sampleFiles.length : Int) 1 ∧
      g.Out = files.map Search.fileNode ∧
      g.Out.length = files.length :=
  Search_truncates_to_prefix (fixedSearcher 7 sampleFiles) () () () "needle" 1 "repo"
    "needle" { ShardFilesConsidered := 7, Files := sampleFiles }
    { ShardFilesConsidered := 7, Files := sampleFiles }
    _ rfl rfl (budget_small _ (by decide)) rfl (by decide)

/-! ## The walk: helper lemmas -/

theorem file_ne_dir : "file".toList ≠ "dir".toList := by decide

theorem entries_mono {rec1 rec2 : Path → Option (List Path)}
    (h : ∀ d o, rec1 d = some o → rec2 d = some o) (dir : Path) :
    ∀ (es : List Entry) (out : List Path),
      traverseDir.entries rec1 dir es = some out → traverseDir.entries rec2 dir es = some out := by
  intro es
  induction es with
  | nil => intro out ho; simpa [traverseDir.entries] using ho
  | cons e es ih =>
    intro out ho
    unfold traverseDir.entries at ho ⊢
    by_cases hf : e.kind = "file".toList
    · rw [if_pos hf] at ho ⊢
      cases hr : traverseDir.entries rec1 dir es with
      | none => rw [hr] at ho; simp at ho
      | some o => rw [hr] at ho; rw [ih o hr]; exact ho
    · rw [if_neg hf] at ho ⊢
      by_cases hd : e.kind = "dir".toList
      · rw [if_pos hd] at ho ⊢
        cases hs : rec1 (dir ++ "/".toList ++ e.name) with
        | none => rw [hs] at ho; simp at ho
        | some sub =>
          rw [hs] at ho
          rw [h _ _ hs]
          cases hr : traverseDir.entries rec1 dir es with
          | none => rw [hr] at ho; simp at ho
          | some o => rw [hr] at ho; rw [ih o hr]; exact ho
      · rw [if_neg hd] at ho ⊢
        exact ih out ho

theorem traverseDir_succ {list : Listing} :
    ∀ (n : Nat) (dir : Path) (out : List Path),
      traverseDir list n dir = some out → traverseDir list (n + 1) dir = some out := by
  intro n
  induction n with
  | zero => intro dir out h; simp [traverseDir] at h
  | succ n ih =>
    intro dir out h
    rw [traverseDir] at h ⊢
    cases hl : list dir with
    | none => rw [hl] at h; exact h
    | some es =>
      rw [hl] at h
      exact entries_mono (fun d o hd => ih d o hd) dir es out h

theorem traverseDir_mono {list : Listing} {n m : Nat} {dir : Path} {out : List Path}
    (hnm : n ≤ m) (h : traverseDir list n dir = some out) :
    traverseDir list m dir = some out := by
  induction hnm with
  | refl => exact h
  | step _ ih => exact traverseDir_succ _ _ _ ih

/-- A depth bound that serves every sub-directory of a listing. -/
theorem fuel_for_entries {list : Listing} (dir : Path) :
    ∀ es : List Entry,
      (∀ e ∈ es, e.kind = "dir".toList →
        ∃ n out, traverseDir list n (dir ++ "/".toList ++ e.name) = some out) →
      ∃ n out, traverseDir.entries (fun d => traverseDir list n d) dir es = some out := by
  intro es
  induction es with
  | nil => intro _; exact ⟨0, [], rfl⟩
  | cons e es ih =>
    intro h
    obtain ⟨n, out, hn⟩ := ih (fun e1 he1 hk => h e1 (List.mem_cons_of_mem _ he1) hk)
    by_cases hf : e.kind = "file".toList
    · refine ⟨n, (dir ++ "/".toList ++ e.name) :: out, ?_⟩
      unfold traverseDir.entries
      rw [if_pos hf, hn]; rfl
    · by_cases hd : e.kind = "dir".toList
      · obtain ⟨k, sub, hk⟩ := h e (List.mem_cons_self _ _) hd
        refine ⟨max n k, sub ++ out, ?_⟩
        have h1 : traverseDir.entries (fun d => traverseDir list (max n k) d) dir es = some out :=
          entries_mono (fun d o hd => traverseDir_mono (le_max_left n k) hd) dir es out hn
        unfold traverseDir.entries
        rw [if_neg hf, if_pos hd]
        simp only [traverseDir_mono (le_max_right n k) hk, h1]
        rfl
      · refine ⟨n, out, ?_⟩
        unfold traverseDir.entries
        rw [if_neg hf, if_neg hd]
        exact hn

theorem traverseDir_terminates {list : Listing} {root : Path} (hfin : FiniteTree list root) :
    ∃ n out, traverseDir list n root = some out := by
  induction hfin with
  | failed hl => exact ⟨1, [], by rw [traverseDir, hl]⟩
  | listed hl _ ih =>
    obtain ⟨n, out, hn⟩ := fuel_for_entries _ _ ih
    exact ⟨n + 1, out, by rw [traverseDir, hl]; exact hn⟩

theorem entries_walk {list : Listing} {rec : Path → Option (List Path)}
    (hrec : ∀ d o, rec d = some o → Walk list d o) (dir : Path) :
    ∀ (es : List Entry) (out : List Path),
      traverseDir.entries rec dir es = some out → WalkEntries list dir es out := by
  intro es
  induction es with
  | nil =>
    intro out ho
    simp only [traverseDir.entries, Option.some.injEq] at ho
    subst ho
    exact .done dir
  | cons e es ih =>
    intro out ho
    unfold traverseDir.entries at ho
    by_cases hf : e.kind = "file".toList
    · rw [if_pos hf] at ho
      cases hr : traverseDir.entries rec dir es with
      | none => rw [hr] at ho; simp at ho
      | some o =>
        rw [hr] at ho
        simp only [Option.map_some', Option.some.injEq] at ho
        subst ho
        exact .file hf (ih o hr)
    · rw [if_neg hf] at ho
      by_cases hd : e.kind = "dir".toList
      · rw [if_pos hd] at ho
        cases hs : rec (dir ++ "/".toList ++ e.name) with
        | none => rw [hs] at ho; simp at ho
        | some sub =>
          rw [hs] at ho
          cases hr : traverseDir.entries rec dir es with
          | none => rw [hr] at ho; simp at ho
          | some o =>
            rw [hr] at ho
            simp only [Option.map_some', Option.some.injEq] at ho
            subst ho
            rcases hrec _ _ hs with ⟨hn, hnil⟩ | ⟨es1, hl, hw⟩
            · subst hnil
              exact .dirFailed hf hd hn (ih o hr)
            · exact .dirListed hf hd hl hw (ih o hr)
      · rw [if_neg hd] at ho
        exact .other hf hd (ih out ho)

theorem traverseDir_walk {list : Listing} :
    ∀ (n : Nat) (dir : Path) (out : List Path),
      traverseDir list n dir = some out → Walk list dir out := by
  intro n
  induction n with
  | zero => intro dir out h; simp [traverseDir] at h
  | succ n ih =>
    intro dir out h
    rw [traverseDir] at h
    cases hl : list dir with
    | none =>
      rw [hl] at h
      simp only [Option.some.injEq] at h
      exact Or.inl ⟨hl, h.symm⟩
    | some es =>
      rw [hl] at h
      exact Or.inr ⟨es, hl, entries_walk (fun d o hd => ih d o hd) dir es out h⟩

theorem WalkEntries_unique {list : Listing} {dir : Path} {es : List Entry} {o1 : List Path}
    (h1 : WalkEntries list dir es o1) :
    ∀ o2, WalkEntries list dir es o2 → o2 = o1 := by
  induction h1 with
  | done dir => intro o2 h2; cases h2; rfl
  | file hf _ ih =>
    intro o2 h2
    cases h2 with
    | file _ h => rw [ih _ h]
    | dirFailed hnf => exact absurd hf hnf
    | dirListed hnf => exact absurd hf hnf
    | other hnf => exact absurd hf hnf
  | dirFailed hnf hd hn _ ih =>
    intro o2 h2
    cases h2 with
    | file hf => exact absurd hf hnf
    | dirFailed _ _ _ h => exact ih _ h
    | dirListed _ _ hl => rw [hn] at hl; cases hl
    | other _ hnd => exact absurd hd hnd
  | dirListed hnf hd hl _ _ ihb ih =>
    intro o2 h2
    cases h2 with
    | file hf => exact absurd hf hnf
    | dirFailed _ _ hn => rw [hl] at hn; cases hn
    | dirListed _ _ hl2 hb h =>
      rw [hl] at hl2
      cases hl2
      rw [ihb _ hb, ih _ h]
    | other _ hnd => exact absurd hd hnd
  | other hnf hnd _ ih =>
    intro o2 h2
    cases h2 with
    | file hf => exact absurd hf hnf
    | dirFailed _ hd => exact absurd hd hnd
    | dirListed _ hd => exact absurd hd hnd
    | other _ _ h => exact ih _ h

theorem Walk_unique {list : Listing} {root : Path} {o1 o2 : List Path}
    (h1 : Walk list root o1) (h2 : Walk list root o2) : o2 = o1 := by
  rcases h1 with ⟨hn1, e1⟩ | ⟨es1, hl1, w1⟩ <;> rcases h2 with ⟨hn2, e2⟩ | ⟨es2, hl2, w2⟩
  · rw [e1, e2]
  · rw [hn1] at hl2; cases hl2
  · rw [hl1] at hn2; cases hn2
  · rw [hl1] at hl2
    cases hl2
    exact WalkEntries_unique w1 _ w2

theorem FileBelow_of_failed {list : Listing} {root p : Path} (hn : list root = none) :
    ¬ FileBelow list root p := by
  rintro ⟨d, es, e, hr, hl, -⟩
  cases hr with
  | refl => rw [hn] at hl; cases hl
  | step hl2 => rw [hn] at hl2; cases hl2

theorem FileBelow_of_listed {list : Listing} {root p : Path} {es : List Entry}
    (hl : list root = some es) :
    FileBelow list root p ↔
      (∃ e ∈ es, e.kind = "file".toList ∧ p = root ++ "/".toList ++ e.name) ∨
      (∃ e ∈ es, e.kind = "dir".toList ∧ FileBelow list (root ++ "/".toList ++ e.name) p) := by
  constructor
  · rintro ⟨d, es1, e, hr, hl1, he, hk, hp⟩
    cases hr with
    | refl =>
      rw [hl] at hl1
      cases hl1
      exact Or.inl ⟨e, he, hk, hp⟩
    | step hl2 he2 hk2 hr2 =>
      rw [hl] at hl2
      cases hl2
      exact Or.inr ⟨_, he2, hk2, d, es1, e, hr2, hl1, he, hk, hp⟩
  · rintro (⟨e, he, hk, hp⟩ | ⟨e, he, hk, d, es1, e1, hr, hl1, he1, hk1, hp⟩)
    · exact ⟨root, es, e, .refl root, hl, he, hk, hp⟩
    · exact ⟨d, es1, e1, .step hl he hk hr, hl1, he1, hk1, hp⟩

theorem WalkEntries_mem {list : Listing} {dir : Path} {es : List Entry} {out : List Path}
    (h : WalkEntries list dir es out) :
    ∀ p, p ∈ out ↔
      (∃ e ∈ es, e.kind = "file".toList ∧ p = dir ++ "/".toList ++ e.name) ∨
      (∃ e ∈ es, e.kind = "dir".toList ∧ FileBelow list (dir ++ "/".toList ++ e.name) p) := by
  induction h with
  | done dir => intro p; simp
  | @file dir e es out hf _ ih =>
    intro p
    rw [List.mem_cons, ih p]
    constructor
    · rintro (hp | ⟨e1, he1, hk, hp⟩ | ⟨e1, he1, hk, hb⟩)
      · exact Or.inl ⟨e, List.mem_cons_self _ _, hf, hp⟩
      · exact Or.inl ⟨e1, List.mem_cons_of_mem _ he1, hk, hp⟩
      · exact Or.inr ⟨e1, List.mem_cons_of_mem _ he1, hk, hb⟩
    · rintro (⟨e1, he1, hk, hp⟩ | ⟨e1, he1, hk, hb⟩)
      · rcases List.mem_cons.1 he1 with rfl | he1
        · exact Or.inl hp
        · exact Or.inr (Or.inl ⟨e1, he1, hk, hp⟩)
      · rcases List.mem_cons.1 he1 with rfl | he1
        · exact absurd (hf.symm.trans hk) file_ne_dir
        · exact Or.inr (Or.inr ⟨e1, he1, hk, hb⟩)
  | @dirFailed dir e es out hnf hd hn _ ih =>
    intro p
    rw [ih p]
    constructor
    · rintro (⟨e1, he1, hk, hp⟩ | ⟨e1, he1, hk, hb⟩)
      · exact Or.inl ⟨e1, List.mem_cons_of_mem _ he1, hk, hp⟩
      · exact Or.inr ⟨e1, List.mem_cons_of_mem _ he1, hk, hb⟩
    · rintro (⟨e1, he1, hk, hp⟩ | ⟨e1, he1, hk, hb⟩)
      · rcases List.mem_cons.1 he1 with rfl | he1
        · exact absurd hk hnf
        · exact Or.inl ⟨e1, he1, hk, hp⟩
      · rcases List.mem_cons.1 he1 with rfl | he1
        · exact absurd hb (FileBelow_of_failed hn)
        · exact Or.inr ⟨e1, he1, hk, hb⟩
  | @dirListed dir e es sub below out hnf hd hl _ _ ihb ih =>
    intro p
    rw [List.mem_append, ih p, ihb p, ← FileBelow_of_listed hl]
    constructor
    · rintro (hb | ⟨e1, he1, hk, hp⟩ | ⟨e1, he1, hk, hb⟩)
      · exact Or.inr ⟨e, List.mem_cons_self _ _, hd, hb⟩
      · exact Or.inl ⟨e1, List.mem_cons_of_mem _ he1, hk, hp⟩
      · exact Or.inr ⟨e1, List.mem_cons_of_mem _ he1, hk, hb⟩
    · rintro (⟨e1, he1, hk, hp⟩ | ⟨e1, he1, hk, hb⟩)
      · rcases List.mem_cons.1 he1 with rfl | he1
        · exact absurd hk hnf
        · exact Or.inr (Or.inl ⟨e1, he1, hk, hp⟩)
      · rcases List.mem_cons.1 he1 with rfl | he1
        · exact Or.inl hb
        · exact Or.inr (Or.inr ⟨e1, he1, hk, hb⟩)
  | @other dir e es out hnf hnd _ ih =>
    intro p
    rw [ih p]
    constructor
    · rintro (⟨e1, he1, hk, hp⟩ | ⟨e1, he1, hk, hb⟩)
      · exact Or.inl ⟨e1, List.mem_cons_of_mem _ he1, hk, hp⟩
      · exact Or.inr ⟨e1, List.mem_cons_of_mem _ he1, hk, hb⟩
    · rintro (⟨e1, he1, hk, hp⟩ | ⟨e1, he1, hk, hb⟩)
      · rcases List.mem_cons.1 he1 with rfl | he1
        · exact absurd hk hnf
        · exact Or.inl ⟨e1, he1, hk, hp⟩
      · rcases List.mem_cons.1 he1 with rfl | he1
        · exact absurd hk hnd
        · exact Or.inr ⟨e1, he1, hk, hb⟩

theorem Walk_mem {list : Listing} {root : Path} {out : List Path} (h : Walk list root out)
    (p : Path) : p ∈ out ↔ FileBelow list root p := by
  rcases h with ⟨hn, rfl⟩ | ⟨es, hl, hw⟩
  · simp [FileBelow_of_failed hn]
  · rw [WalkEntries_mem hw p, FileBelow_of_listed hl]

theorem sampleTree_finite : FiniteTree sampleTree "/r".toList := by
  refine @FiniteTree.listed sampleTree "/r".toList
    [⟨"a.pdf".toList, "file".toList⟩, ⟨"d".toList, "dir".toList⟩,
      ⟨"gone".toList, "dir".toList⟩, ⟨"c".toList, "file".toList⟩] (by decide) ?_
  intro e he hk
  simp only [List.mem_cons, List.mem_singleton, List.not_mem_nil, or_false] at he
  rcases he with rfl | rfl | rfl | rfl
  · exact absurd hk (by decide)
  · refine @FiniteTree.listed sampleTree _ [⟨"b".toList, "file".toList⟩] (by decide) ?_
    intro e he hk
    simp only [List.mem_singleton] at he
    subst he
    exact absurd hk (by decide)
  · exact .failed (by decide)
  · exact absurd hk (by decide)

/-- C5: on a finite tree `traverseDir(root)` returns, and the paths it sends are the walk
of the specification in depth-first listing order (files emit `dir + "/" + name`,
directories emit only what their subtree emits, a failed listing emits nothing and the
walk goes on with the next entry); a path is sent exactly when it belongs to an entry of
kind `file` in a directory reachable from `root` through successful listings. -/
theorem traverseDir_emits_files_depth_first (list : Listing) (root : Path)
    (hfin : FiniteTree list root) :
    ∃ n out, (∀ m, n ≤ m → traverseDir list m root = some out) ∧
      (∀ m out1, traverseDir list m root = some out1 → out1 = out) ∧
      Walk list root out ∧
      (∀ out1, Walk list root out1 → out1 = out) ∧
      (∀ p, p ∈ out ↔ FileBelow list root p) := by
  obtain ⟨n, out, h⟩ := traverseDir_terminates hfin
  have hw := traverseDir_walk n root out h
  exact ⟨n, out, fun m hm => traverseDir_mono hm h,
    fun m out1 h1 => Walk_unique hw (traverseDir_walk m root out1 h1),
    hw, fun out1 h1 => Walk_unique hw h1, Walk_mem hw⟩

/-- C5 on the sample tree: the files `a.pdf`, `d/b` and `c` are sent in that order, the
directories `d` and `gone` are not, and the failed listing of `gone` does not keep `c`
from being sent. -/
theorem traverseDir_emits_files_depth_first_witness :
    ∃ n out, (∀ m, n ≤ m → traverseDir sampleTree m "/r".toList = some out) ∧
      out = ["/r/a.pdf".toList, "/r/d/b".toList, "/r/c".toList] ∧
      Walk sampleTree "/r".toList out ∧
      (∀ p, p ∈ out ↔ FileBelow sampleTree "/r".toList p) := by
  obtain ⟨n, out, h1, h2, h3, -, h5⟩ :=
    traverseDir_emits_files_depth_first sampleTree "/r".toList sampleTree_finite
  exact ⟨n, out, h1,
    (h2 2 ["/r/a.pdf".toList, "/r/d/b".toList, "/r/c".toList] (by decide)).symm, h3, h5⟩

/-! ## The ingestion loop: helper lemmas -/

/-- The shape of the sent paths, over the loop on the entries of one directory. -/
theorem emitted_shape_entries {list : Listing} {rec : Path → Option (List Path)}
    (hrec : ∀ d o, rec d = some o → ∀ p ∈ o, ∃ d1 es1 e1 rest,
      list d1 = some es1 ∧ e1 ∈ es1 ∧ p = d ++ "/".toList ++ (e1.name ++ rest))
    (dir : Path) :
    ∀ (es : List Entry) (out : List Path),
      (∀ e ∈ es, ∃ d1 es1, list d1 = some es1 ∧ e ∈ es1) →
      traverseDir.entries rec dir es = some out →
      ∀ p ∈ out, ∃ d1 es1 e1 rest,
        list d1 = some es1 ∧ e1 ∈ es1 ∧ p = dir ++ "/".toList ++ (e1.name ++ rest) := by
  intro es
  induction es with
  | nil =>
    intro out _ ho p hp
    simp only [traverseDir.entries, Option.some.injEq] at ho
    subst ho
    cases hp
  | cons e es ih =>
    intro out hall ho p hp
    have hall1 : ∀ e1 ∈ es, ∃ d1 es1, list d1 = some es1 ∧ e1 ∈ es1 :=
      fun e1 he1 => hall e1 (List.mem_cons_of_mem _ he1)
    obtain ⟨d0, es0, hl0, he0⟩ := hall e (List.mem_cons_self _ _)
    unfold traverseDir.entries at ho
    by_cases hf : e.kind = "file".toList
    · rw [if_pos hf] at ho
      cases hr : traverseDir.entries rec dir es with
      | none => rw [hr] at ho; simp at ho
      | some o =>
        rw [hr] at ho
        simp only [Option.map_some', Option.some.injEq] at ho
        subst ho
        rcases List.mem_cons.1 hp with rfl | hp
        · exact ⟨d0, es0, e, [], hl0, he0, by simp⟩
        · exact ih o hall1 hr p hp
    · rw [if_neg hf] at ho
      by_cases hd : e.kind = "dir".toList
      · rw [if_pos hd] at ho
        cases hs : rec (dir ++ "/".toList ++ e.name) with
        | none => rw [hs] at ho; simp at ho
        | some sub =>
          rw [hs] at ho
          cases hr : traverseDir.entries rec dir es with
          | none => rw [hr] at ho; simp at ho
          | some o =>
            rw [hr] at ho
            simp only [Option.map_some', Option.some.injEq] at ho
            subst ho
            rcases List.mem_append.1 hp with hp | hp
            · obtain ⟨d1, es1, e1, rest, -, -, rfl⟩ := hrec _ _ hs p hp
              exact ⟨d0, es0, e, "/".toList ++ (e1.name ++ rest), hl0, he0, by simp⟩
            · exact ih o hall1 hr p hp
      · rw [if_neg hd] at ho
        exact ih out hall1 ho p hp

/-- Every path sent by `traverseDir(dir)` is `dir + "/"` followed by the name of a listed
entry and possibly more. -/
theorem emitted_shape {list : Listing} :
    ∀ (n : Nat) (dir : Path) (out : List Path),
      traverseDir list n dir = some out →
      ∀ p ∈ out, ∃ d1 es1 e1 rest,
        list d1 = some es1 ∧ e1 ∈ es1 ∧ p = dir ++ "/".toList ++ (e1.name ++ rest) := by
  intro n
  induction n with
  | zero => intro dir out h; simp [traverseDir] at h
  | succ n ih =>
    intro dir out h
    rw [traverseDir] at h
    cases hl : list dir with
    | none =>
      rw [hl] at h
      simp only [Option.some.injEq] at h
      subst h
      intro p hp
      cases hp
    | some es =>
      rw [hl] at h
      exact emitted_shape_entries (fun d o hd => ih d o hd) dir es out
        (fun e he => ⟨dir, es, hl, he⟩) h

theorem TrimPrefix_append (pre rest : Path) : TrimPrefix (pre ++ rest) pre = rest := by
  unfold TrimPrefix HasPrefix
  rw [if_pos (List.isPrefixOf_iff_prefix.2 (List.prefix_append pre rest))]
  exact List.drop_left pre rest

theorem loop_calls {β : Type} (E : Svn) (B : Builder β) (dir : Path) :
    ∀ (fs : List Path) (b : β),
      (indexArg.loop E B dir fs b).1 = fs.filterMap fun f =>
        (indexArg.content E f).map fun c =>
          BuilderCall.AddFile (TrimPrefix f (dir ++ "/".toList)) c := by
  intro fs
  induction fs with
  | nil => intro b; rfl
  | cons f rest ih =>
    intro b
    unfold indexArg.loop
    cases hc : indexArg.content E f with
    | none => simp only [List.filterMap_cons, hc, Option.map_none']; exact ih b
    | some c => simp only [List.filterMap_cons, hc, Option.map_some']; rw [ih]

theorem content_isNone (E : Svn) (f : Path) :
    (indexArg.content E f).isNone = conversionFailed E f := by
  unfold indexArg.content conversionFailed
  cases HasSuffix f ".pdf".toList
  · simp
  · cases h : E.Convert (E.File f) (E.MimeTypeByExtension f) <;> simp [h]

theorem loop_state {β : Type} (E : Svn) (B : Builder β) (dir : Path) :
    ∀ (fs : List Path) (b : β),
      (indexArg.loop E B dir fs b).2 =
        (fs.filterMap fun f =>
          (indexArg.content E f).map fun c => (TrimPrefix f (dir ++ "/".toList), c)).foldl
          (fun b a => (B.AddFile b a.1 a.2).2) b := by
  intro fs
  induction fs with
  | nil => intro b; rfl
  | cons f rest ih =>
    intro b
    unfold indexArg.loop
    cases hc : indexArg.content E f with
    | none => simp only [List.filterMap_cons, hc, Option.map_none']; exact ih b
    | some c =>
      simp only [List.filterMap_cons, hc, Option.map_some', List.foldl_cons]
      rw [ih]

theorem added_names (E : Svn) (root : Path) :
    ∀ fs : List Path,
      (fs.filterMap fun f =>
          (indexArg.content E f).map fun c => (TrimPrefix f root, c)).map Prod.fst
        = (fs.filter fun f => !conversionFailed E f).map fun f => TrimPrefix f root := by
  intro fs
  induction fs with
  | nil => rfl
  | cons f rest ih =>
    have hn := content_isNone E f
    cases hc : indexArg.content E f with
    | none =>
      rw [hc] at hn
      have hcf : conversionFailed E f = true := by simpa using hn.symm
      simp only [List.filterMap_cons, hc, Option.map_none', List.filter_cons, hcf,
        Bool.not_true, Bool.false_eq_true, if_false]
      exact ih
    | some c =>
      rw [hc] at hn
      have hcf : conversionFailed E f = false := by simpa using hn.symm
      simp only [List.filterMap_cons, hc, Option.map_some', List.filter_cons, hcf,
        Bool.not_false, if_true, List.map_cons]
      rw [ih]

theorem indexArg_run {β : Type} (E : Svn) (B : Builder β) (fuel : Nat) (arg : Path)
    (opts : Options) (dir : Path) (b0 : β) (out : List Path)
    (habs : E.Abs arg = .ok dir)
    (hnb : B.NewBuilder { opts with RepositoryName := E.Base dir } = .ok b0)
    (hout : traverseDir E.List fuel dir = some out) :
    indexArg E B fuel arg opts = some
      ⟨(indexArg.loop E B dir out b0).1 ++ [BuilderCall.Finish],
        B.Finish (indexArg.loop E B dir out b0).2⟩ := by
  unfold indexArg
  simp only [habs, hnb, hout]

theorem reattach_root {list : Listing} {n : Nat} {dir : Path} {out : List Path}
    (hout : traverseDir list n dir = some out) {p : Path} (hp : p ∈ out) :
    dir ++ "/".toList ++ TrimPrefix p (dir ++ "/".toList) = p := by
  obtain ⟨d1, es1, e1, rest, -, -, rfl⟩ := emitted_shape n dir out hout p hp
  rw [TrimPrefix_append]

theorem not_HasPrefix_of_head {r pre : Path} {c : Char} {cs t : List Char}
    (hr : r = c :: cs) (hc : c ≠ '/') (hpre : pre = '/' :: t) :
    HasPrefix r pre = false := by
  subst hr hpre
  unfold HasPrefix
  rw [Bool.eq_false_iff]
  intro h
  rw [List.isPrefixOf_iff_prefix] at h
  obtain ⟨u, hu⟩ := h
  simp only [List.cons_append, List.cons.injEq] at hu
  exact hc hu.1.symm

/-- C6: `indexArg` adds the walked paths in the order `traverseDir` sends them, each
with the root prefix `dir + "/"` stripped, leaving out exactly the documents whose path
ends in `.pdf` and whose conversion failed; such a failure does not end the run:
`builder.Finish` is the last call and its result is what `indexArg` returns. -/
theorem indexArg_adds_in_walk_order {β : Type} (E : Svn) (B : Builder β) (fuel : Nat)
    (arg : Path) (opts : Options) (dir : Path) (b0 : β) (out : List Path)
    (habs : E.Abs arg = .ok dir)
    (hnb : B.NewBuilder { opts with RepositoryName := E.Base dir } = .ok b0)
    (hout : traverseDir E.List fuel dir = some out) :
    ∃ (run : IndexRun) (adds : List (Path × Bytes)),
      indexArg E B fuel arg opts = some run ∧
      run.calls = adds.map (fun a => BuilderCall.AddFile a.1 a.2) ++ [BuilderCall.Finish] ∧
      adds.map Prod.fst = (out.filter fun f => !conversionFailed E f).map
        (fun f => TrimPrefix f (dir ++ "/".toList)) ∧
      adds.map (fun a => dir ++ "/".toList ++ a.1)
        = out.filter (fun f => !conversionFailed E f) ∧
      run.err = B.Finish (adds.foldl (fun b a => (B.AddFile b a.1 a.2).2) b0) := by
  refine ⟨_, out.filterMap fun f =>
      (indexArg.content E f).map fun c => (TrimPrefix f (dir ++ "/".toList), c),
    indexArg_run E B fuel arg opts dir b0 out habs hnb hout, ?_, added_names E _ out, ?_, ?_⟩
  · show (indexArg.loop E B dir out b0).1 ++ _ = _
    rw [loop_calls, List.map_filterMap]
    congr 2
    funext f
    cases indexArg.content E f <;> rfl
  · have h := added_names E (dir ++ "/".toList) out
    have h2 := congrArg (List.map fun r => dir ++ "/".toList ++ r) h
    rw [List.map_map, List.map_map] at h2
    rw [show (fun a : Path × Bytes => dir ++ "/".toList ++ a.1)
      = (fun r => dir ++ "/".toList ++ r) ∘ Prod.fst from rfl, h2]
    conv_rhs => rw [← List.map_id (out.filter fun f => !conversionFailed E f)]
    apply List.map_congr_left
    intro p hp
    exact reattach_root hout (List.mem_of_mem_filter hp)
  · show B.Finish (indexArg.loop E B dir out b0).2 = _
    rw [loop_state]

/-- C6 on the sample tree, where every conversion fails: `a.pdf` is left out, `d/b`
and `c` are added in walk order, and `Finish` is called and returns `nil`. -/
theorem indexArg_adds_in_walk_order_witness :
    ∃ (run : IndexRun) (adds : List (Path × Bytes)),
      indexArg sampleSvn rejectingBuilder 2 "/r".toList sampleOptions = some run ∧
      run.calls = adds.map (fun a => BuilderCall.AddFile a.1 a.2) ++ [BuilderCall.Finish] ∧
      adds.map Prod.fst = ["d/b".toList, "c".toList] ∧
      adds.map (fun a => "/r".toList ++ "/".toList ++ a.1)
        = ["/r/d/b".toList, "/r/c".toList] ∧
      run.err = none := by
  obtain ⟨run, adds, h1, h2, h3, h4, h5⟩ :=
    indexArg_adds_in_walk_order sampleSvn rejectingBuilder 2 "/r".toList sampleOptions
      "/r".toList 0 ["/r/a.pdf".toList, "/r/d/b".toList, "/r/c".toList] rfl rfl (by decide)
  exact ⟨run, adds, h1, h2, h3.trans (by decide), h4.trans (by decide), h5⟩

/-- C4 (as stated, refuted): on the sample tree with a builder whose every `AddFile`
returns an error, `indexArg` still adds `d/b` and then `c`, calls `Finish`, and returns
`nil`. -/
theorem indexArg_goes_on_after_AddFile_error :
    (rejectingBuilder.AddFile 0 "d/b".toList []).1 = some "rejected" ∧
    indexArg sampleSvn rejectingBuilder 2 "/r".toList sampleOptions
      = some ⟨[.AddFile "d/b".toList [], .AddFile "c".toList [], .Finish], none⟩ := by
  decide

/-- C4 (amended): `indexArg` discards the result of `builder.AddFile`: whatever the
builder returns, the calls made on it are one `AddFile` per document that is not skipped,
in walk order, then `Finish` on the state those calls lead to, and `indexArg` returns the
result of that `Finish`. -/
theorem indexArg_discards_AddFile_result {β : Type} (E : Svn) (B : Builder β) (fuel : Nat)
    (arg : Path) (opts : Options) (dir : Path) (b0 : β) (out : List Path)
    (habs : E.Abs arg = .ok dir)
    (hnb : B.NewBuilder { opts with RepositoryName := E.Base dir } = .ok b0)
    (hout : traverseDir E.List fuel dir = some out) :
    ∃ run : IndexRun, indexArg E B fuel arg opts = some run ∧
      run.calls = (out.filterMap fun f =>
          (indexArg.content E f).map fun c =>
            BuilderCall.AddFile (TrimPrefix f (dir ++ "/".toList)) c)
        ++ [BuilderCall.Finish] ∧
      run.err = B.Finish
        ((out.filterMap fun f =>
            (indexArg.content E f).map fun c => (TrimPrefix f (dir ++ "/".toList), c)).foldl
          (fun b a => (B.AddFile b a.1 a.2).2) b0) :=
  ⟨_, indexArg_run E B fuel arg opts dir b0 out habs hnb hout,
    by rw [loop_calls], by rw [loop_state]⟩

/-- C4 (amended) on the sample tree with the builder whose every `AddFile` fails: both
kept documents are added, `Finish` is called after the second one and its `nil` is
returned. -/
theorem indexArg_discards_AddFile_result_witness :
    ∃ run : IndexRun,
      indexArg sampleSvn rejectingBuilder 2 "/r".toList sampleOptions = some run ∧
      run.calls = [.AddFile "d/b".toList [], .AddFile "c".toList [], .Finish] ∧
      run.err = rejectingBuilder.Finish 2 := by
  obtain ⟨run, h1, h2, h3⟩ :=
    indexArg_discards_AddFile_result sampleSvn rejectingBuilder 2 "/r".toList sampleOptions
      "/r".toList 0 ["/r/a.pdf".toList, "/r/d/b".toList, "/r/c".toList] rfl rfl (by decide)
  exact ⟨run, h1, h2.trans (by decide), h3.trans (by decide)⟩

/-- C7: for an absolute root `dir` and listed names that are non-empty and do not begin
with `/`, every path `p` sent by `traverseDir(dir)` gives a relative path
`r = TrimPrefix(p, dir + "/")` with `dir + "/" + r = p` and `r` not beginning with
`dir + "/"`; so does every name `indexArg` passes to `AddFile`. -/
theorem indexArg_relative_path_drops_root {β : Type} (E : Svn) (B : Builder β) (b0 : β)
    (fuel : Nat) (dir : Path) (out : List Path)
    (habs : HasPrefix dir "/".toList = true)
    (hnames : ∀ d es e, E.List d = some es → e ∈ es →
      e.name ≠ [] ∧ HasPrefix e.name "/".toList = false)
    (hout : traverseDir E.List fuel dir = some out) :
    (∀ p ∈ out,
      dir ++ "/".toList ++ TrimPrefix p (dir ++ "/".toList) = p ∧
      HasPrefix (TrimPrefix p (dir ++ "/".toList)) (dir ++ "/".toList) = false) ∧
    (∀ name content, BuilderCall.AddFile name content ∈ (indexArg.loop E B dir out b0).1 →
      dir ++ "/".toList ++ name ∈ out ∧ HasPrefix name (dir ++ "/".toList) = false) := by
  have key : ∀ p ∈ out,
      dir ++ "/".toList ++ TrimPrefix p (dir ++ "/".toList) = p ∧
      HasPrefix (TrimPrefix p (dir ++ "/".toList)) (dir ++ "/".toList) = false := by
    intro p hp
    refine ⟨reattach_root hout hp, ?_⟩
    obtain ⟨d1, es1, e1, rest, hl, he, rfl⟩ := emitted_shape fuel dir out hout p hp
    rw [TrimPrefix_append]
    obtain ⟨hne, hns⟩ := hnames d1 es1 e1 hl he
    obtain ⟨t, ht⟩ : ∃ t, dir = '/' :: t := by
      unfold HasPrefix at habs
      rw [List.isPrefixOf_iff_prefix] at habs
      obtain ⟨t, ht⟩ := habs
      exact ⟨t, ht.symm⟩
    cases hn : e1.name with
    | nil => exact absurd hn hne
    | cons c cs =>
      have hc : c ≠ '/' := by
        rintro rfl
        rw [hn] at hns
        simp [HasPrefix, List.isPrefixOf] at hns
      exact @not_HasPrefix_of_head (c :: cs ++ rest) (dir ++ "/".toList) c (cs ++ rest)
        (t ++ "/".toList) rfl hc (by rw [ht]; rfl)
  refine ⟨key, ?_⟩
  intro name content hmem
  rw [loop_calls, List.mem_filterMap] at hmem
  obtain ⟨p, hp, hmap⟩ := hmem
  cases hc : indexArg.content E p with
  | none => rw [hc] at hmap; cases hmap
  | some c =>
    rw [hc] at hmap
    simp only [Option.map_some', Option.some.injEq, BuilderCall.AddFile.injEq] at hmap
    obtain ⟨rfl, -⟩ := hmap
    obtain ⟨h1, h2⟩ := key p hp
    exact ⟨by rw [h1]; exact hp, h2⟩

theorem sampleTree_names : ∀ d es e, sampleSvn.List d = some es → e ∈ es →
    e.name ≠ [] ∧ HasPrefix e.name "/".toList = false := by
  intro d es e hl he
  simp only [sampleSvn, sampleTree] at hl
  split at hl
  · simp only [Option.some.injEq] at hl
    subst hl
    simp only [List.mem_cons, List.mem_singleton, List.not_mem_nil, or_false] at he
    rcases he with rfl | rfl | rfl | rfl <;> decide
  · split at hl
    · simp only [Option.some.injEq] at hl
      subst hl
      simp only [List.mem_singleton] at he
      subst he
      decide
    · cases hl

/-- C7 on the sample tree rooted at `/r`: the path `/r/d/b` becomes `d/b`. -/
theorem indexArg_relative_path_drops_root_witness :
    "/r".toList ++ "/".toList ++ TrimPrefix "/r/d/b".toList ("/r".toList ++ "/".toList)
      = "/r/d/b".toList ∧
    TrimPrefix "/r/d/b".toList ("/r".toList ++ "/".toList) = "d/b".toList ∧
    HasPrefix (TrimPrefix "/r/d/b".toList ("/r".toList ++ "/".toList))
      ("/r".toList ++ "/".toList) = false := by
  have h := (indexArg_relative_path_drops_root sampleSvn rejectingBuilder 0 2 "/r".toList
    ["/r/a.pdf".toList, "/r/d/b".toList, "/r/c".toList] (by decide) sampleTree_names
    (by decide)).1 "/r/d/b".toList (by decide)
  exact ⟨h.1, by decide, h.2⟩

end Zoekt
